import Mathlib

/-!
Shallow embedding of the news-summary service in src/app.py.

The durable `articles` table is modelled as a `List Article` kept in
insertion (rowid-ascending) order; SQL reads ordered by `id DESC` reverse
the filtered list, and `LIMIT 1` with `ORDER BY id DESC` becomes a fold
picking the row with the maximal id.  Timestamps (`time.time()`) are
modelled as `Int` seconds; one refresh batch carries one instant `now`.
The in-memory `PRIORITY_QUEUE` deque is a `List String` of article links.
The fallible collaborators are explicit arguments: the RSS fetch result is
the entry list `feedparser` returned (a failed fetch yields no entries,
because feedparser swallows transport errors into an empty bozo feed), and
the AI backend response is `Option String` (`none` = the call raised, which
`get_ai_summary` turns into its diagnostic string).
-/

/-- Enrichment states stored in the `status` column of `articles`. -/
inductive Status where
  | pending
  | in_progress
  | done
  | error
deriving DecidableEq, Repr

/-- One row of the `articles` table (src/app.py lines 45-51). -/
structure Article where
  id : Nat
  link : String
  title : String
  source : String
  summary_original : String
  image_url : Option String
  ai_summary : Option String
  status : Status
  topic : String
  fetch_timestamp : Int
deriving DecidableEq, Repr

/-- One RSS feed entry as consumed by `fetch_and_cache_news`
(src/app.py lines 81-87): `source`/`image_url` are `none` when the feed
entry lacks the field. -/
structure Entry where
  link : String
  title : String
  source : Option String
  summary : String
  image_url : Option String
deriving DecidableEq, Repr

/-- `PAGE_SIZE = 6` (src/app.py line 19). -/
def PAGE_SIZE : Int := 6

/-- `FEED_FETCH_COUNT = 30` (src/app.py line 20). -/
def FEED_FETCH_COUNT : Nat := 30

/-- `CACHE_EXPIRATION_SECONDS = 900` (src/app.py line 21). -/
def CACHE_EXPIRATION_SECONDS : Int := 900

/-- Character-list prefix test used to model Python's substring operator. -/
def matchesAt : List Char → List Char → Bool
  | [], _ => true
  | _ :: _, [] => false
  | p :: ps, c :: cs => decide (p = c) && matchesAt ps cs

/-- Substring test on character lists (Python `pat in s`). -/
def hasSub (pat : List Char) : List Char → Bool
  | [] => matchesAt pat []
  | c :: cs => matchesAt pat (c :: cs) || hasSub pat cs

/-- Python `"Error:" in summary` (src/app.py line 181): the error-shape
test the worker applies to a produced summary. -/
def containsErr (s : String) : Bool :=
  hasSub "Error:".toList s.toList

/-- `get_ai_summary` (src/app.py lines 57-69): a successful backend
response is stripped and returned; an exception is caught and turned into
the diagnostic string mentioning the provider. -/
def get_ai_summary (provider : String) (resp : Option String) : String :=
  match resp with
  | some t => t.trim
  | none => "Error: AI summarization failed. Provider: " ++ provider ++ "."

/-- `popleft` guarded by the emptiness check (src/app.py lines 153-154):
an empty queue yields `none` rather than an error. -/
def popFront (q : List String) : Option String × List String :=
  match q with
  | [] => (none, [])
  | x :: xs => (some x, xs)

/-- The priority-queue update of `get_news` (src/app.py lines 128-137):
page 1 clears the queue, then each paginated article that is `pending`
and not already queued has its link appended. -/
def updateQueue (queue : List String) (page : Int) (pageArticles : List Article) : List String :=
  let q0 := if page = 1 then [] else queue
  pageArticles.foldl
    (fun q a => if a.status = Status.pending ∧ ¬ (a.link ∈ q) then q ++ [a.link] else q) q0

/-- Python list slicing `l[s:e]` with int (possibly negative) bounds. -/
def pySlice {α : Type} (l : List α) (s e : Int) : List α :=
  let n : Int := l.length
  let s1 : Int := if s < 0 then max (n + s) 0 else min s n
  let e1 : Int := if e < 0 then max (n + e) 0 else min e n
  (l.drop s1.toNat).take (e1 - s1).toNat

/-- Pagination plus queue side effect of `get_news`
(src/app.py lines 122-139): returns the page slice, `has_more`, and the
updated priority queue. -/
def getNewsFromArticles (articles : List Article) (page : Int) (queue : List String) :
    List Article × Bool × List String :=
  let startIndex : Int := (page - 1) * PAGE_SIZE
  let endIndex : Int := startIndex + PAGE_SIZE
  let paginated := pySlice articles startIndex endIndex
  let hasMore := decide (endIndex < (articles.length : Int))
  (paginated, hasMore, updateQueue queue page paginated)

/-- Flask `request.args.get("page", 1, type=int)` (src/app.py line 105):
a missing or non-numeric page parameter falls back to the default 1. -/
def parsePage (raw : Option Int) : Int :=
  match raw with
  | some p => p
  | none => 1

/-- `get_news` pagination entered through the Flask parameter layer. -/
def getNewsRequest (articles : List Article) (raw : Option Int) (queue : List String) :
    List Article × Bool × List String :=
  getNewsFromArticles articles (parsePage raw) queue

/-- `cache_key` resolution (src/app.py line 106). -/
def cacheKeyOf (q : String) : String :=
  if q = "" then "__trending__" else q

/-- The row built by the `INSERT OR IGNORE` statement
(src/app.py lines 84-87) for one feed entry. -/
def entryArticle (e : Entry) (key : String) (now : Int) (nid : Nat) : Article :=
  { id := nid
    link := Entry.link e
    title := e.title
    source := e.source.getD "Unknown Source"
    summary_original := e.summary
    image_url := e.image_url
    ai_summary := none
    status := Status.pending
    topic := key
    fetch_timestamp := now }

/-- `INSERT OR IGNORE` on the UNIQUE `link` column: a row whose link is
already present is ignored, otherwise it is appended. -/
def insertOrIgnore (store : List Article) (a : Article) : List Article :=
  if store.any (fun b => decide (b.link = a.link)) then store else store ++ [a]

/-- The insertion loop of `fetch_and_cache_news` (src/app.py lines 81-87):
each entry is inserted with `INSERT OR IGNORE`; an ignored insert consumes
no rowid. -/
def insertEntries (store : List Article) (es : List Entry) (key : String) (now : Int)
    (nid : Nat) : List Article × Nat :=
  match es with
  | [] => (store, nid)
  | e :: rest =>
    if store.any (fun a => decide (a.link = Entry.link e))
    then insertEntries store rest key now nid
    else insertEntries (store ++ [entryArticle e key now nid]) rest key now (nid + 1)

/-- `fetch_and_cache_news` (src/app.py lines 72-91): delete all rows of
the topic, insert the (bounded) fetched entries as `pending`, and return
the topic's rows newest-first.  The fetch result `entries` is what
feedparser produced; a failed fetch produced no entries.  Returns the new
store, the returned article list, and the next free rowid. -/
def fetchAndCacheNews (store : List Article) (key : String) (entries : List Entry)
    (now : Int) (nid : Nat) : List Article × List Article × Nat :=
  let store1 := store.filter (fun a => decide (a.topic ≠ key))
  let p := insertEntries store1 (entries.take FEED_FETCH_COUNT) key now nid
  (p.1, ((p.1.filter (fun a => decide (a.topic = key))).reverse).take FEED_FETCH_COUNT, p.2)

/-- The row with the maximal rowid of a list (how `ORDER BY id DESC
LIMIT 1` reads off an arbitrary row set). -/
def pickLatest (l : List Article) : Option Article :=
  l.foldl
    (fun acc a =>
      match acc with
      | none => some a
      | some b => if Article.id b < Article.id a then some a else some b)
    none

/-- `SELECT fetch_timestamp FROM articles WHERE topic = ? ORDER BY id DESC
LIMIT 1` (src/app.py line 110): the topic row with the maximal rowid. -/
def latestArticle (store : List Article) (key : String) : Option Article :=
  pickLatest (store.filter (fun a => decide (a.topic = key)))

/-- The staleness test of `get_news` (src/app.py line 114). -/
def is_stale (store : List Article) (key : String) (now : Int) : Bool :=
  match latestArticle store key with
  | none => true
  | some a => decide (now - a.fetch_timestamp > CACHE_EXPIRATION_SECONDS)

/-- The spec's staleness formula, stated in its own words for comparison:
no items exist for the topic, or now minus the maximum fetchedAt over the
topic's items exceeds the expiration window. -/
def specIsStale (store : List Article) (key : String) (now : Int) : Prop :=
  let items := store.filter (fun a => decide (a.topic = key))
  items = [] ∨
    ∃ m, m ∈ List.map (fun a => a.fetch_timestamp) items ∧
      (∀ x ∈ List.map (fun a => a.fetch_timestamp) items, x ≤ m) ∧
      now - m > CACHE_EXPIRATION_SECONDS

/-- The worker's claim update (src/app.py lines 172-173):
`UPDATE articles SET status = 'in_progress' WHERE id = ?` — unconditional
on the current status. -/
def claimUpdate (store : List Article) (aid : Nat) : List Article :=
  List.map (fun a => if Article.id a = aid then { a with status := Status.in_progress } else a)
    store

/-- The worker's selection (src/app.py lines 150-166): pop one link from
the priority queue; if its row is still `pending`, take it; otherwise
fall back to the first `pending` row of the store. -/
def selectChosen (store : List Article) (queue : List String) : Option Article :=
  let prio : Option Article :=
    match (popFront queue).1 with
    | some link => store.find? (fun a => decide (a.link = link ∧ a.status = Status.pending))
    | none => none
  match prio with
  | some a => some a
  | none => store.find? (fun a => decide (a.status = Status.pending))

/-- The worker's finalize update (src/app.py lines 181-185): status
`error` when the summary contains the error marker, else `done`; either
way the summary text is stored in `ai_summary`. -/
def finalizeUpdate (store : List Article) (aid : Nat) (summary : String) : List Article :=
  List.map (fun a =>
    if Article.id a = aid then
      if containsErr summary then { a with status := Status.error, ai_summary := some summary }
      else { a with status := Status.done, ai_summary := some summary }
    else a) store

/-- The startup recovery pass (src/app.py line 198):
`UPDATE articles SET status = 'pending' WHERE status = 'in_progress'`. -/
def startupReset (store : List Article) : List Article :=
  List.map (fun a =>
    if a.status = Status.in_progress then { a with status := Status.pending } else a) store

/-- Whole-system state: the `articles` table, the in-memory priority
queue, the worker's currently claimed rowid (its local `pending_article`
between the two commits of one loop iteration), and the next free
AUTOINCREMENT rowid. -/
structure SysState where
  store : List Article
  queue : List String
  claimed : Option Nat
  nextId : Nat
deriving DecidableEq, Repr

/-- One `/get-news` request (src/app.py lines 101-140): staleness check,
refetch or read, pagination, and the priority-queue side effect. -/
def getNewsStep (st : SysState) (q : String) (page : Int) (now : Int)
    (entries : List Entry) : SysState :=
  let key := cacheKeyOf q
  let t :=
    if is_stale st.store key now
    then fetchAndCacheNews st.store key entries now st.nextId
    else (st.store, (st.store.filter (fun a => decide (a.topic = key))).reverse, st.nextId)
  let r := getNewsFromArticles t.2.1 page st.queue
  { store := t.1, queue := r.2.2, claimed := st.claimed, nextId := t.2.2 }

/-- The selection-and-claim half of one worker iteration
(src/app.py lines 150-173, up to the first commit): pop the queue, pick a
pending article (priority first, fallback scan second), and if one was
found mark it `in_progress` by rowid and remember it. -/
def workerSelect (st : SysState) : SysState :=
  match selectChosen st.store st.queue with
  | none => { st with queue := (popFront st.queue).2 }
  | some a =>
    { st with
      queue := (popFront st.queue).2
      store := claimUpdate st.store (Article.id a)
      claimed := some (Article.id a) }

/-- The enrich-and-finalize half of one worker iteration
(src/app.py lines 175-186): run the summarizer and record the outcome on
the claimed row. -/
def workerFinalize (st : SysState) (aid : Nat) (provider : String)
    (resp : Option String) : SysState :=
  { st with
    store := finalizeUpdate st.store aid (get_ai_summary provider resp)
    claimed := none }

/-- The startup recovery pass as a system step (src/app.py lines 196-199). -/
def startupStep (st : SysState) : SysState :=
  { st with store := startupReset st.store }

/-- The system's atomic steps, delimited by the commit points of the
code: a `/get-news` request, the worker's select-and-claim, the worker's
finalize, and the startup recovery pass.  A query's `now` is bounded
below by every stored timestamp (wall-clock monotonicity). -/
inductive Step : SysState → SysState → Prop where
  | query (st : SysState) (q : String) (page : Int) (now : Int) (entries : List Entry)
      (hnow : ∀ a ∈ st.store, a.fetch_timestamp ≤ now) :
      Step st (getNewsStep st q page now entries)
  | claimSel (st : SysState) (hidle : st.claimed = none) :
      Step st (workerSelect st)
  | finalize (st : SysState) (aid : Nat) (provider : String) (resp : Option String)
      (hcl : st.claimed = some aid) :
      Step st (workerFinalize st aid provider resp)
  | startup (st : SysState) :
      Step st (startupStep st)

/-- State invariant: rowids are pairwise distinct, below the next free
rowid, and a claimed row (if still present) is `in_progress`. -/
def SysInv (st : SysState) : Prop :=
  (List.map (fun a => Article.id a) st.store).Nodup ∧
  (∀ a ∈ st.store, Article.id a < st.nextId) ∧
  (∀ a ∈ st.store, st.claimed = some (Article.id a) → a.status = Status.in_progress)

/-- The status edges allowed by the spec's transition path
pending → in_progress → {done, error} (no change counts as no
transition). -/
def pathAllowed (s1 s2 : Status) : Prop :=
  s1 = s2 ∨
  (s1 = Status.pending ∧ s2 = Status.in_progress) ∨
  (s1 = Status.in_progress ∧ (s2 = Status.done ∨ s2 = Status.error))

/-- The status edges the code actually produces: the spec path plus the
startup-recovery reset of `in_progress` back to `pending`. -/
def allowedAmended (s1 s2 : Status) : Prop :=
  pathAllowed s1 s2 ∨ (s1 = Status.in_progress ∧ s2 = Status.pending)

/-- The operations ever applied to the priority queue: the `get_news`
side effect (reset-and-mark on page 1, append otherwise) and the worker's
guarded pop. -/
inductive QOp where
  | update (page : Int) (arts : List Article)
  | pop
deriving DecidableEq, Repr

/-- Apply one queue operation. -/
def applyQOp (q : List String) : QOp → List String
  | QOp.update page arts => updateQueue q page arts
  | QOp.pop => (popFront q).2

/-- The links of the `pending` articles of a page, in page order. -/
def pendingLinks (l : List Article) : List String :=
  List.map (fun a => a.link) (l.filter (fun a => decide (a.status = Status.pending)))

/-- A sample article row used for concrete evaluations. -/
def mkArticle (i : Nat) (lnk : String) (stt : Status) (tpc : String) (ts : Int) : Article :=
  { id := i
    link := lnk
    title := "title"
    source := "src"
    summary_original := "orig"
    image_url := none
    ai_summary := none
    status := stt
    topic := tpc
    fetch_timestamp := ts }

/-- A sample feed entry used for concrete evaluations. -/
def sampleEntry (lnk : String) : Entry :=
  { link := lnk
    title := "title"
    source := none
    summary := "sum"
    image_url := none }

theorem matchesAt_append_self (pat rest : List Char) : matchesAt pat (pat ++ rest) = true := by
  induction pat with
  | nil => rfl
  | cons p ps ih => simp [matchesAt, ih]

theorem hasSub_of_matchesAt (pat l : List Char) (h : matchesAt pat l = true) :
    hasSub pat l = true := by
  cases l with
  | nil => simpa [hasSub] using h
  | cons c cs => simp [hasSub, h]

theorem updateQueue_nodup (q : List String) (page : Int) (arts : List Article)
    (hq : q.Nodup) : (updateQueue q page arts).Nodup := by
  have base : (if page = 1 then ([] : List String) else q).Nodup := by
    split
    · exact List.nodup_nil
    · exact hq
  unfold updateQueue
  revert base
  generalize (if page = 1 then ([] : List String) else q) = q0
  induction arts generalizing q0 with
  | nil => intro base; simpa using base
  | cons a rest ih =>
    intro base
    simp only [List.foldl_cons]
    apply ih
    by_cases hc : a.status = Status.pending ∧ ¬ (a.link ∈ q0)
    · rw [if_pos hc, List.nodup_append]
      refine ⟨base, List.nodup_singleton _, ?_⟩
      intro x hx hmem
      simp only [List.mem_singleton] at hmem
      exact hc.2 (hmem ▸ hx)
    · rw [if_neg hc]
      exact base

theorem popFront_nodup (q : List String) (h : q.Nodup) : (popFront q).2.Nodup := by
  cases q with
  | nil => exact List.nodup_nil
  | cons x xs => exact List.Nodup.of_cons h

theorem applyQOp_nodup (q : List String) (op : QOp) (h : q.Nodup) :
    (applyQOp q op).Nodup := by
  cases op with
  | update page arts => exact updateQueue_nodup q page arts h
  | pop => exact popFront_nodup q h

/-- C8: after any sequence of queue operations starting from the empty
queue, the priority queue holds no duplicate keys, and popping an empty
queue yields the empty answer rather than an error. -/
theorem c8_queue_invariants (ops : List QOp) :
    (List.foldl applyQOp [] ops).Nodup ∧ popFront [] = (none, []) := by
  have aux : ∀ (l : List QOp) (q : List String), q.Nodup →
      (List.foldl applyQOp q l).Nodup := by
    intro l
    induction l with
    | nil => intro q h; simpa using h
    | cons op rest ih =>
      intro q h
      simp only [List.foldl_cons]
      exact ih _ (applyQOp_nodup _ _ h)
  exact ⟨aux ops [] List.nodup_nil, rfl⟩

theorem c8_witness :
    (List.foldl applyQOp []
      [QOp.update 1 [mkArticle 0 "k" Status.pending "X" 0], QOp.pop]).Nodup ∧
    popFront [] = (none, []) :=
  c8_queue_invariants _

theorem pySlice_of_start_ge {α : Type} (l : List α) (s e : Int)
    (hs : (l.length : Int) ≤ s) (he : s ≤ e) : pySlice l s e = [] := by
  have hn : (0:Int) ≤ (l.length : Int) := Int.ofNat_nonneg _
  unfold pySlice
  have hs0 : ¬ s < 0 := by omega
  have he0 : ¬ e < 0 := by omega
  simp only [if_neg hs0, if_neg he0]
  have h1 : min s (l.length : Int) = (l.length : Int) := min_eq_right hs
  have h2 : min e (l.length : Int) = (l.length : Int) := min_eq_right (le_trans hs he)
  rw [h1, h2, sub_self]
  simp

/-- C10: a page whose start index is at or past the end of the cached
list is served without error: an empty slice and hasMore = false. -/
theorem c10_out_of_range (arts : List Article) (p : Int) (queue : List String)
    (h : (p - 1) * PAGE_SIZE ≥ (arts.length : Int)) :
    (getNewsFromArticles arts p queue).1 = [] ∧
    (getNewsFromArticles arts p queue).2.1 = false := by
  constructor
  · show pySlice arts ((p - 1) * PAGE_SIZE) ((p - 1) * PAGE_SIZE + PAGE_SIZE) = []
    exact pySlice_of_start_ge arts _ _ h (by simp [PAGE_SIZE])
  · show decide ((p - 1) * PAGE_SIZE + PAGE_SIZE < (arts.length : Int)) = false
    apply decide_eq_false
    simp only [PAGE_SIZE] at h ⊢
    omega

theorem c10_witness :
    (getNewsFromArticles [mkArticle 0 "k" Status.pending "X" 0] 2 []).1 = [] ∧
    (getNewsFromArticles [mkArticle 0 "k" Status.pending "X" 0] 2 []).2.1 = false :=
  c10_out_of_range _ 2 [] (by decide)

theorem pySlice_end_zero {α : Type} (l : List α) (s : Int) : pySlice l s 0 = [] := by
  have hn : (0:Int) ≤ (l.length : Int) := Int.ofNat_nonneg _
  unfold pySlice
  have h0 : ¬ ((0:Int) < 0) := by omega
  simp only [if_neg h0]
  have hmin : min (0:Int) (l.length : Int) = 0 := by omega
  rw [hmin]
  have hs1 : (0:Int) ≤ (if s < 0 then max ((l.length : Int) + s) 0 else min s (l.length : Int)) := by
    split <;> omega
  have hz : ((0:Int) - (if s < 0 then max ((l.length : Int) + s) 0
      else min s (l.length : Int))).toNat = 0 := by omega
  rw [hz]
  simp

/-- C6 counterexample: on a one-article topic, a numeric page-0 request
returns a different slice and hasMore than the page-1 request, so page
values below 1 are not treated as page 1. -/
theorem c6_counterexample :
    getNewsFromArticles [mkArticle 1 "l1" Status.pending "X" 0] 0 [] ≠
    getNewsFromArticles [mkArticle 1 "l1" Status.pending "X" 0] 1 [] := by
  decide

/-- C6 amended: a missing or non-numeric page parameter is treated as
page 1, but a numeric page below 1 is passed straight into Python slice
arithmetic: a page-0 request returns an empty items slice while hasMore
is true exactly when the topic has any cached items. -/
theorem c6_amended_page_semantics :
    (∀ (arts : List Article) (q : List String),
        getNewsRequest arts none q = getNewsFromArticles arts 1 q) ∧
    (∀ (arts : List Article) (q : List String),
        (getNewsFromArticles arts 0 q).1 = [] ∧
        ((getNewsFromArticles arts 0 q).2.1 = true ↔ arts ≠ [])) := by
  constructor
  · intro arts q
    rfl
  · intro arts q
    have hend : ((0:Int) - 1) * PAGE_SIZE + PAGE_SIZE = 0 := by simp [PAGE_SIZE]
    constructor
    · show pySlice arts (((0:Int) - 1) * PAGE_SIZE) (((0:Int) - 1) * PAGE_SIZE + PAGE_SIZE) = []
      rw [hend]
      exact pySlice_end_zero arts _
    · show decide (((0:Int) - 1) * PAGE_SIZE + PAGE_SIZE < (arts.length : Int)) = true ↔ arts ≠ []
      rw [hend]
      simp [List.length_pos]

theorem c6_witness :
    getNewsRequest [mkArticle 1 "l1" Status.pending "X" 0] none [] =
      getNewsFromArticles [mkArticle 1 "l1" Status.pending "X" 0] 1 [] ∧
    (getNewsFromArticles [mkArticle 1 "l1" Status.pending "X" 0] 0 []).1 = [] :=
  ⟨c6_amended_page_semantics.1 _ _, (c6_amended_page_semantics.2 [mkArticle 1 "l1" Status.pending "X" 0] []).1⟩

/-- C2: at the failing input (a topic with one cached article and a fetch
that produced no entries) the code deletes the topic's cached rows,
commits, and returns an empty success list with no error signal, instead
of keeping the cache intact and reporting the failure. -/
theorem c2_delete_before_fetch :
    fetchAndCacheNews [mkArticle 0 "k1" Status.done "X" 100] "X" [] 2000 1 = ([], [], 1) := by
  decide

/-- C9: inserting a row whose link key already exists leaves the store
unchanged, and a fresh ingestion of three raw entries two of which share
a key ends with exactly two rows for the topic, all pending. -/
theorem c9_dedup_insert :
    (∀ (store : List Article) (a : Article),
        (∃ b ∈ store, Article.link b = Article.link a) → insertOrIgnore store a = store) ∧
    (List.filter (fun a => decide (a.topic = "X"))
        (fetchAndCacheNews [] "X" [sampleEntry "k1", sampleEntry "k2", sampleEntry "k1"] 0 0).1).length = 2 ∧
    (∀ a ∈ (fetchAndCacheNews [] "X" [sampleEntry "k1", sampleEntry "k2", sampleEntry "k1"] 0 0).1,
        a.status = Status.pending) := by
  refine ⟨?_, by decide, by decide⟩
  rintro store a ⟨b, hb, hlink⟩
  unfold insertOrIgnore
  rw [if_pos]
  exact List.any_eq_true.mpr ⟨b, hb, decide_eq_true hlink⟩

theorem c9_witness :
    insertOrIgnore [mkArticle 0 "k1" Status.pending "X" 0] (mkArticle 5 "k1" Status.pending "Y" 9) =
      [mkArticle 0 "k1" Status.pending "X" 0] :=
  c9_dedup_insert.1 _ _ ⟨mkArticle 0 "k1" Status.pending "X" 0, by decide, by decide⟩

/-- C1 counterexample: the claim-step UPDATE applied to a row whose
status is no longer pending does not leave the row unchanged — it is
moved to in_progress anyway, so the update is not conditional. -/
theorem c1_counterexample :
    Article.status (mkArticle 0 "l0" Status.done "X" 0) ≠ Status.pending ∧
    claimUpdate [mkArticle 0 "l0" Status.done "X" 0] 0 ≠ [mkArticle 0 "l0" Status.done "X" 0] := by
  decide

theorem selectChosen_pending (store : List Article) (queue : List String) (a : Article)
    (hsel : selectChosen store queue = some a) : a.status = Status.pending := by
  unfold selectChosen at hsel
  cases queue with
  | nil =>
    simp only [popFront] at hsel
    have h1 := List.find?_some hsel
    exact of_decide_eq_true h1
  | cons x xs =>
    simp only [popFront] at hsel
    cases hf : store.find? (fun a => decide (a.link = x ∧ a.status = Status.pending)) with
    | some b =>
      rw [hf] at hsel
      have hba : b = a := Option.some.inj hsel
      have h1 := List.find?_some hf
      have h2 := of_decide_eq_true h1
      exact hba ▸ h2.2
    | none =>
      rw [hf] at hsel
      have h1 := List.find?_some hsel
      exact of_decide_eq_true h1

theorem selectChosen_mem (store : List Article) (queue : List String) (c : Article)
    (hsel : selectChosen store queue = some c) : c ∈ store := by
  unfold selectChosen at hsel
  cases queue with
  | nil =>
    simp only [popFront] at hsel
    exact List.mem_of_find?_eq_some hsel
  | cons x xs =>
    simp only [popFront] at hsel
    cases hf : store.find? (fun a => decide (a.link = x ∧ a.status = Status.pending)) with
    | some b =>
      rw [hf] at hsel
      exact (Option.some.inj hsel) ▸ List.mem_of_find?_eq_some hf
    | none =>
      rw [hf] at hsel
      exact List.mem_of_find?_eq_some hsel

/-- C1 amended: the claim step sets the selected row to in_progress
unconditionally by rowid — even a row that is no longer pending is
updated, and no failure is reported; the only pending check happens at
selection time, where both the priority lookup and the fallback scan
return only pending rows. -/
theorem c1_claim_step (store : List Article) (aid : Nat) :
    (∀ a ∈ store, Article.id a = aid → a.status ≠ Status.pending →
        { a with status := Status.in_progress } ∈ claimUpdate store aid) ∧
    (∀ (queue : List String) (a : Article), selectChosen store queue = some a →
        a.status = Status.pending) := by
  constructor
  · intro a ha hid _
    unfold claimUpdate
    refine List.mem_map.mpr ⟨a, ha, ?_⟩
    rw [if_pos hid]
  · intro queue a hsel
    exact selectChosen_pending store queue a hsel

theorem containsErr_diag (provider : String) :
    containsErr (get_ai_summary provider none) = true := by
  unfold get_ai_summary containsErr
  have hdata : ("Error: AI summarization failed. Provider: " ++ provider ++ ".").toList
      = "Error:".toList ++ (" AI summarization failed. Provider: ".toList
          ++ (provider.toList ++ ".".toList)) := by
    have hsplit : "Error: AI summarization failed. Provider: ".toList
        = "Error:".toList ++ " AI summarization failed. Provider: ".toList := by decide
    show ("Error: AI summarization failed. Provider: " ++ provider ++ ".").data
        = "Error:".data ++ (" AI summarization failed. Provider: ".data
            ++ (provider.data ++ ".".data))
    rw [String.data_append, String.data_append]
    rw [show "Error: AI summarization failed. Provider: ".data
        = "Error:".data ++ " AI summarization failed. Provider: ".data from hsplit]
    simp [List.append_assoc]
  rw [hdata]
  exact hasSub_of_matchesAt _ _ (matchesAt_append_self _ _)

/-- C3: finalizing a claimed row stores the produced summary and sets
status done exactly when the backend answered and the answer is not
error-shaped, and sets status error (with the diagnostic text as the
stored summary) exactly when the call failed or the result is
error-shaped (contains the error marker). -/
theorem c3_finalize (store : List Article) (aid : Nat) (provider : String)
    (resp : Option String) (a : Article) (ha : a ∈ store) (hid : Article.id a = aid) :
    ∃ a', a' ∈ finalizeUpdate store aid (get_ai_summary provider resp) ∧
      Article.id a' = aid ∧
      Article.ai_summary a' = some (get_ai_summary provider resp) ∧
      (Article.status a' = Status.error ↔
        (resp = none ∨ containsErr (get_ai_summary provider resp) = true)) ∧
      (Article.status a' = Status.done ↔
        ∃ t, resp = some t ∧ containsErr (String.trim t) = false) := by
  cases resp with
  | none =>
    have hc : containsErr (get_ai_summary provider none) = true := containsErr_diag provider
    refine ⟨({ a with status := Status.error, ai_summary := some (get_ai_summary provider none) }), ?_, hid, rfl, ?_, ?_⟩
    · unfold finalizeUpdate
      refine List.mem_map.mpr ⟨a, ha, ?_⟩
      rw [if_pos hid, if_pos hc]
    · exact ⟨fun _ => Or.inl rfl, fun _ => rfl⟩
    · exact ⟨fun h => Status.noConfusion h, fun ⟨t, ht, _⟩ => Option.noConfusion ht⟩
  | some t =>
    have htrim : get_ai_summary provider (some t) = String.trim t := rfl
    by_cases hc : containsErr (get_ai_summary provider (some t)) = true
    · refine ⟨({ a with status := Status.error, ai_summary := some (get_ai_summary provider (some t)) }), ?_, hid, rfl, ?_, ?_⟩
      · unfold finalizeUpdate
        refine List.mem_map.mpr ⟨a, ha, ?_⟩
        rw [if_pos hid, if_pos hc]
      · exact ⟨fun _ => Or.inr hc, fun _ => rfl⟩
      · refine ⟨fun h => Status.noConfusion h, ?_⟩
        rintro ⟨u, hu, hufalse⟩
        cases hu
        rw [htrim] at hc
        rw [hufalse] at hc
        exact Bool.noConfusion hc
    · refine ⟨({ a with status := Status.done, ai_summary := some (get_ai_summary provider (some t)) }), ?_, hid, rfl, ?_, ?_⟩
      · unfold finalizeUpdate
        refine List.mem_map.mpr ⟨a, ha, ?_⟩
        rw [if_pos hid, if_neg hc]
      · refine ⟨fun h => Status.noConfusion h, ?_⟩
        rintro (h | h)
        · exact Option.noConfusion h
        · exact absurd h hc
      · refine ⟨fun _ => ⟨t, rfl, ?_⟩, fun _ => rfl⟩
        rw [← htrim]
        cases hb : containsErr (get_ai_summary provider (some t)) with
        | false => rfl
        | true => exact absurd hb hc

theorem c3_witness :
    ∃ a', a' ∈ finalizeUpdate [mkArticle 0 "k" Status.in_progress "X" 0] 0
        (get_ai_summary "ollama" (some "A fine summary.")) ∧
      Article.id a' = 0 ∧
      Article.ai_summary a' = some (get_ai_summary "ollama" (some "A fine summary.")) ∧
      (Article.status a' = Status.error ↔
        (some "A fine summary." = none ∨
          containsErr (get_ai_summary "ollama" (some "A fine summary.")) = true)) ∧
      (Article.status a' = Status.done ↔
        ∃ t, some "A fine summary." = some t ∧ containsErr (String.trim t) = false) :=
  c3_finalize [mkArticle 0 "k" Status.in_progress "X" 0] 0 "ollama" (some "A fine summary.")
    (mkArticle 0 "k" Status.in_progress "X" 0) (by decide) rfl

theorem c1_witness :
    { mkArticle 0 "l0" Status.done "X" 0 with status := Status.in_progress } ∈
      claimUpdate [mkArticle 0 "l0" Status.done "X" 0] 0 ∧
    Article.status (mkArticle 1 "p1" Status.pending "X" 0) = Status.pending :=
  ⟨(c1_claim_step [mkArticle 0 "l0" Status.done "X" 0] 0).1 _ (by decide) rfl (by decide),
   (c1_claim_step [mkArticle 1 "p1" Status.pending "X" 0] 0).2 [] _ (by decide)⟩

theorem pickLatest_go (l : List Article) : ∀ (b : Article),
    ∃ c, List.foldl
        (fun acc a =>
          match acc with
          | none => some a
          | some b => if Article.id b < Article.id a then some a else some b)
        (some b) l = some c ∧
      (c ∈ l ∨ c = b) ∧ Article.id b ≤ Article.id c ∧ ∀ x ∈ l, Article.id x ≤ Article.id c := by
  induction l with
  | nil =>
    intro b
    exact ⟨b, rfl, Or.inr rfl, le_refl _, fun x hx => absurd hx (List.not_mem_nil x)⟩
  | cons a l ih =>
    intro b
    by_cases hlt : Article.id b < Article.id a
    · obtain ⟨c, hc, hmem, hle, hall⟩ := ih a
      refine ⟨c, ?_, ?_, ?_, ?_⟩
      · simpa [hlt] using hc
      · rcases hmem with h | h
        · exact Or.inl (List.mem_cons_of_mem a h)
        · exact Or.inl (h ▸ List.mem_cons_self a l)
      · exact le_trans (le_of_lt hlt) hle
      · intro x hx
        rcases List.mem_cons.mp hx with h | h
        · exact h ▸ hle
        · exact hall x h
    · obtain ⟨c, hc, hmem, hle, hall⟩ := ih b
      refine ⟨c, ?_, ?_, hle, ?_⟩
      · simpa [hlt] using hc
      · rcases hmem with h | h
        · exact Or.inl (List.mem_cons_of_mem a h)
        · exact Or.inr h
      · intro x hx
        rcases List.mem_cons.mp hx with h | h
        · exact h ▸ le_trans (le_of_not_lt hlt) hle
        · exact hall x h

theorem pickLatest_cons (a : Article) (l : List Article) :
    ∃ c, pickLatest (a :: l) = some c ∧ c ∈ a :: l ∧
      ∀ x ∈ a :: l, Article.id x ≤ Article.id c := by
  obtain ⟨c, hc, hmem, hle, hall⟩ := pickLatest_go l a
  refine ⟨c, ?_, ?_, ?_⟩
  · unfold pickLatest
    simpa using hc
  · rcases hmem with h | h
    · exact List.mem_cons_of_mem a h
    · exact h ▸ List.mem_cons_self a l
  · intro x hx
    rcases List.mem_cons.mp hx with h | h
    · exact h ▸ hle
    · exact hall x h

theorem filter_topic_mem (store : List Article) (key : String) (y : Article)
    (h : y ∈ store.filter (fun a => decide (a.topic = key))) :
    y ∈ store ∧ y.topic = key := by
  have h2 := List.mem_filter.mp h
  exact ⟨h2.1, of_decide_eq_true h2.2⟩

/-- C5: on any store whose rowids order the topic's timestamps
monotonically (which every reachable store satisfies, rows being inserted
in time order), the code's staleness test — based on the newest rowid's
timestamp — agrees exactly with the spec formula based on the maximum
fetchedAt of the topic's items. -/
theorem c5_staleness (store : List Article) (key : String) (now : Int)
    (hmono : ∀ a ∈ store, ∀ b ∈ store, a.topic = key → b.topic = key →
        Article.id a ≤ Article.id b → a.fetch_timestamp ≤ b.fetch_timestamp) :
    (is_stale store key now = true ↔ specIsStale store key now) := by
  unfold is_stale latestArticle specIsStale
  cases hfil : store.filter (fun a => decide (a.topic = key)) with
  | nil =>
    simp [pickLatest]
  | cons a l =>
    obtain ⟨c, hc, hcmem, hmax⟩ := pickLatest_cons a l
    rw [hc]
    have hcstore := filter_topic_mem store key c (hfil ▸ hcmem)
    show decide (now - Article.fetch_timestamp c > CACHE_EXPIRATION_SECONDS) = true ↔
      (a :: l = [] ∨
        ∃ m, m ∈ List.map (fun x => x.fetch_timestamp) (a :: l) ∧
          (∀ x ∈ List.map (fun x => x.fetch_timestamp) (a :: l), x ≤ m) ∧
          now - m > CACHE_EXPIRATION_SECONDS)
    simp only [decide_eq_true_eq]
    constructor
    · intro hgt
      refine Or.inr ⟨Article.fetch_timestamp c, List.mem_map_of_mem _ hcmem, ?_, hgt⟩
      intro x hx
      obtain ⟨y, hy, rfl⟩ := List.mem_map.mp hx
      have hystore := filter_topic_mem store key y (hfil ▸ hy)
      have hyid : Article.id y ≤ Article.id c := hmax y hy
      exact hmono y hystore.1 c hcstore.1 hystore.2 hcstore.2 hyid
    · rintro (h | ⟨m, hm, hmax2, hgt⟩)
      · exact List.noConfusion h
      · have hcm : Article.fetch_timestamp c ≤ m :=
          hmax2 _ (List.mem_map_of_mem _ hcmem)
        omega

theorem c5_witness :
    is_stale [mkArticle 0 "k1" Status.pending "X" 100] "X" 2000 = true ↔
      specIsStale [mkArticle 0 "k1" Status.pending "X" 100] "X" 2000 :=
  c5_staleness [mkArticle 0 "k1" Status.pending "X" 100] "X" 2000 (by decide)

theorem pendingLinks_cons_pending (a : Article) (rest : List Article)
    (ha : a.status = Status.pending) :
    pendingLinks (a :: rest) = a.link :: pendingLinks rest := by
  simp [pendingLinks, List.filter_cons, ha]

theorem pendingLinks_cons_not_pending (a : Article) (rest : List Article)
    (ha : ¬ a.status = Status.pending) :
    pendingLinks (a :: rest) = pendingLinks rest := by
  simp [pendingLinks, List.filter_cons, ha]

theorem updateQueue_fold_eq (arts : List Article) (q0 : List String)
    (hnd : (pendingLinks arts).Nodup) (hdis : ∀ x ∈ pendingLinks arts, ¬ x ∈ q0) :
    List.foldl
      (fun q a => if a.status = Status.pending ∧ ¬ (a.link ∈ q) then q ++ [a.link] else q)
      q0 arts = q0 ++ pendingLinks arts := by
  induction arts generalizing q0 with
  | nil => simp [pendingLinks]
  | cons a rest ih =>
    by_cases ha : a.status = Status.pending
    · have hpl := pendingLinks_cons_pending a rest ha
      rw [hpl] at hnd hdis
      have hnotin : ¬ a.link ∈ q0 := hdis _ (List.mem_cons_self _ _)
      have hhead : ¬ a.link ∈ pendingLinks rest := (List.nodup_cons.mp hnd).1
      rw [List.foldl_cons, if_pos ⟨ha, hnotin⟩, hpl]
      rw [ih (q0 ++ [a.link]) (List.nodup_cons.mp hnd).2 ?_]
      · rw [List.append_assoc, List.singleton_append]
      · intro x hx hmem
        rcases List.mem_append.mp hmem with h | h
        · exact hdis x (List.mem_cons_of_mem _ hx) h
        · rw [List.mem_singleton] at h
          exact hhead (h ▸ hx)
    · have hpl := pendingLinks_cons_not_pending a rest ha
      rw [hpl] at hnd hdis
      rw [List.foldl_cons, if_neg (fun hcon => ha hcon.1), hpl]
      exact ih q0 hnd hdis

theorem updateQueue_page1 (q : List String) (arts : List Article)
    (hnd : (pendingLinks arts).Nodup) :
    updateQueue q 1 arts = pendingLinks arts := by
  unfold updateQueue
  rw [if_pos rfl]
  have h := updateQueue_fold_eq arts [] hnd (by intro x _ hmem; exact absurd hmem (List.not_mem_nil x))
  simpa using h

theorem updateQueue_append (q : List String) (page : Int) (arts : List Article)
    (hpage : ¬ page = 1) (hnd : (pendingLinks arts).Nodup)
    (hdis : ∀ x ∈ pendingLinks arts, ¬ x ∈ q) :
    updateQueue q page arts = q ++ pendingLinks arts := by
  unfold updateQueue
  rw [if_neg hpage]
  exact updateQueue_fold_eq arts q hnd hdis

theorem pySlice_zero_six {α : Type} (l : List α) : pySlice l 0 6 = l.take 6 := by
  have hn : (0:Int) ≤ (l.length : Int) := Int.ofNat_nonneg _
  unfold pySlice
  have h0 : ¬ ((0:Int) < 0) := by omega
  have h6 : ¬ ((6:Int) < 0) := by omega
  simp only [if_neg h0, if_neg h6]
  have hmin0 : min (0:Int) (l.length : Int) = 0 := by omega
  rw [hmin0]
  have hcnt : ((min (6:Int) (l.length : Int) - 0)).toNat = min 6 l.length := by omega
  rw [hcnt]
  rw [show ((0:Int)).toNat = 0 from rfl, List.drop_zero, List.take_eq_take]
  omega

theorem pySlice_six_twelve {α : Type} (l : List α) : pySlice l 6 12 = (l.drop 6).take 6 := by
  have hn : (0:Int) ≤ (l.length : Int) := Int.ofNat_nonneg _
  unfold pySlice
  have h6 : ¬ ((6:Int) < 0) := by omega
  have h12 : ¬ ((12:Int) < 0) := by omega
  simp only [if_neg h6, if_neg h12]
  have hs : ((min (6:Int) (l.length : Int))).toNat = min 6 l.length := by omega
  have he : ((min (12:Int) (l.length : Int) - min (6:Int) (l.length : Int))).toNat
      = min 6 (l.length - 6) := by omega
  rw [hs, he]
  have hdrop : l.drop (min 6 l.length) = l.drop 6 := by
    rcases le_or_lt 6 l.length with h | h
    · rw [min_eq_left h]
    · rw [min_eq_right (le_of_lt h), List.drop_length,
        List.drop_eq_nil_of_le (le_of_lt h)]
  rw [hdrop, List.take_eq_take, List.length_drop]
  omega

/-- C7: in a two-page browsing session over an unchanged topic cache
(links pairwise distinct, as the UNIQUE column guarantees), the priority
queue afterwards is exactly the pending keys of page 1 followed by the
pending keys of page 2, with no duplicates. -/
theorem c7_two_page_session (arts : List Article) (q0 : List String)
    (hnd : (List.map (fun a => a.link) arts).Nodup) :
    (getNewsFromArticles arts 2 (getNewsFromArticles arts 1 q0).2.2).2.2 =
      pendingLinks (getNewsFromArticles arts 1 q0).1 ++
        pendingLinks (getNewsFromArticles arts 2 (getNewsFromArticles arts 1 q0).2.2).1 ∧
    (pendingLinks (getNewsFromArticles arts 1 q0).1 ++
        pendingLinks (getNewsFromArticles arts 2 (getNewsFromArticles arts 1 q0).2.2).1).Nodup := by
  have e1 : ((1:Int) - 1) * PAGE_SIZE = 0 := by norm_num [PAGE_SIZE]
  have e2 : ((1:Int) - 1) * PAGE_SIZE + PAGE_SIZE = 6 := by norm_num [PAGE_SIZE]
  have e3 : ((2:Int) - 1) * PAGE_SIZE = 6 := by norm_num [PAGE_SIZE]
  have e4 : ((2:Int) - 1) * PAGE_SIZE + PAGE_SIZE = 12 := by norm_num [PAGE_SIZE]
  have hs1 : pySlice arts (((1:Int) - 1) * PAGE_SIZE) (((1:Int) - 1) * PAGE_SIZE + PAGE_SIZE)
      = arts.take 6 := by
    rw [e2, e1]
    exact pySlice_zero_six arts
  have hs2 : pySlice arts (((2:Int) - 1) * PAGE_SIZE) (((2:Int) - 1) * PAGE_SIZE + PAGE_SIZE)
      = (arts.drop 6).take 6 := by
    rw [e4, e3]
    exact pySlice_six_twelve arts
  have hp1 : (getNewsFromArticles arts 1 q0).1 = arts.take 6 := hs1
  have hp2 : (getNewsFromArticles arts 2 (getNewsFromArticles arts 1 q0).2.2).1
      = (arts.drop 6).take 6 := hs2
  have hsub : List.Sublist
      (List.map (fun a => a.link) (arts.take 6) ++
        List.map (fun a => a.link) ((arts.drop 6).take 6))
      (List.map (fun a => a.link) arts) := by
    have h1 : List.Sublist ((arts.take 6) ++ ((arts.drop 6).take 6))
        (arts.take 6 ++ arts.drop 6) :=
      List.Sublist.append (List.Sublist.refl _) (List.take_sublist _ _)
    rw [List.take_append_drop] at h1
    have h2 := List.Sublist.map (fun a => a.link) h1
    rw [List.map_append] at h2
    exact h2
  have hnd12 : (List.map (fun a => a.link) (arts.take 6) ++
      List.map (fun a => a.link) ((arts.drop 6).take 6)).Nodup :=
    List.Nodup.sublist hsub hnd
  have hplsub1 : List.Sublist (pendingLinks (arts.take 6))
      (List.map (fun a => a.link) (arts.take 6)) :=
    List.Sublist.map _ (List.filter_sublist _)
  have hplsub2 : List.Sublist (pendingLinks ((arts.drop 6).take 6))
      (List.map (fun a => a.link) ((arts.drop 6).take 6)) :=
    List.Sublist.map _ (List.filter_sublist _)
  have hndp : (pendingLinks (arts.take 6) ++ pendingLinks ((arts.drop 6).take 6)).Nodup :=
    List.Nodup.sublist (List.Sublist.append hplsub1 hplsub2) hnd12
  obtain ⟨hnd1, hnd2, hdisj⟩ := List.nodup_append.mp hndp
  have hq1 : (getNewsFromArticles arts 1 q0).2.2 = pendingLinks (arts.take 6) := by
    show updateQueue q0 1
        (pySlice arts (((1:Int) - 1) * PAGE_SIZE) (((1:Int) - 1) * PAGE_SIZE + PAGE_SIZE))
      = pendingLinks (arts.take 6)
    rw [hs1]
    exact updateQueue_page1 q0 _ hnd1
  have hq2 : (getNewsFromArticles arts 2 (getNewsFromArticles arts 1 q0).2.2).2.2 =
      pendingLinks (arts.take 6) ++ pendingLinks ((arts.drop 6).take 6) := by
    show updateQueue ((getNewsFromArticles arts 1 q0).2.2) 2
        (pySlice arts (((2:Int) - 1) * PAGE_SIZE) (((2:Int) - 1) * PAGE_SIZE + PAGE_SIZE))
      = pendingLinks (arts.take 6) ++ pendingLinks ((arts.drop 6).take 6)
    rw [hs2, hq1]
    refine updateQueue_append _ 2 _ (by norm_num) hnd2 ?_
    intro x hx hmem
    exact hdisj hmem hx
  refine ⟨?_, ?_⟩
  · rw [hq2, hp1, hp2]
  · rw [hp1, hp2]
    exact hndp

theorem c7_witness :
    (getNewsFromArticles
        [mkArticle 7 "u7" Status.pending "X" 0, mkArticle 6 "u6" Status.done "X" 0,
         mkArticle 5 "u5" Status.pending "X" 0, mkArticle 4 "u4" Status.pending "X" 0,
         mkArticle 3 "u3" Status.error "X" 0, mkArticle 2 "u2" Status.pending "X" 0,
         mkArticle 1 "u1" Status.pending "X" 0, mkArticle 0 "u0" Status.in_progress "X" 0]
        2
        (getNewsFromArticles
          [mkArticle 7 "u7" Status.pending "X" 0, mkArticle 6 "u6" Status.done "X" 0,
           mkArticle 5 "u5" Status.pending "X" 0, mkArticle 4 "u4" Status.pending "X" 0,
           mkArticle 3 "u3" Status.error "X" 0, mkArticle 2 "u2" Status.pending "X" 0,
           mkArticle 1 "u1" Status.pending "X" 0, mkArticle 0 "u0" Status.in_progress "X" 0]
          1 ["stalehint"]).2.2).2.2 =
      pendingLinks (getNewsFromArticles
        [mkArticle 7 "u7" Status.pending "X" 0, mkArticle 6 "u6" Status.done "X" 0,
         mkArticle 5 "u5" Status.pending "X" 0, mkArticle 4 "u4" Status.pending "X" 0,
         mkArticle 3 "u3" Status.error "X" 0, mkArticle 2 "u2" Status.pending "X" 0,
         mkArticle 1 "u1" Status.pending "X" 0, mkArticle 0 "u0" Status.in_progress "X" 0]
        1 ["stalehint"]).1 ++
      pendingLinks (getNewsFromArticles
        [mkArticle 7 "u7" Status.pending "X" 0, mkArticle 6 "u6" Status.done "X" 0,
         mkArticle 5 "u5" Status.pending "X" 0, mkArticle 4 "u4" Status.pending "X" 0,
         mkArticle 3 "u3" Status.error "X" 0, mkArticle 2 "u2" Status.pending "X" 0,
         mkArticle 1 "u1" Status.pending "X" 0, mkArticle 0 "u0" Status.in_progress "X" 0]
        2
        (getNewsFromArticles
          [mkArticle 7 "u7" Status.pending "X" 0, mkArticle 6 "u6" Status.done "X" 0,
           mkArticle 5 "u5" Status.pending "X" 0, mkArticle 4 "u4" Status.pending "X" 0,
           mkArticle 3 "u3" Status.error "X" 0, mkArticle 2 "u2" Status.pending "X" 0,
           mkArticle 1 "u1" Status.pending "X" 0, mkArticle 0 "u0" Status.in_progress "X" 0]
          1 ["stalehint"]).2.2).1 :=
  (c7_two_page_session
    [mkArticle 7 "u7" Status.pending "X" 0, mkArticle 6 "u6" Status.done "X" 0,
     mkArticle 5 "u5" Status.pending "X" 0, mkArticle 4 "u4" Status.pending "X" 0,
     mkArticle 3 "u3" Status.error "X" 0, mkArticle 2 "u2" Status.pending "X" 0,
     mkArticle 1 "u1" Status.pending "X" 0, mkArticle 0 "u0" Status.in_progress "X" 0]
    ["stalehint"] (by decide)).1

theorem mem_id_unique (l : List Article) (hnd : (List.map (fun x => Article.id x) l).Nodup)
    (a b : Article) (ha : a ∈ l) (hb : b ∈ l) (h : Article.id a = Article.id b) : a = b :=
  List.inj_on_of_nodup_map hnd ha hb h

theorem insertEntries_mem (es : List Entry) (store : List Article) (key : String)
    (now : Int) (nid : Nat) (x : Article) (hx : x ∈ (insertEntries store es key now nid).1) :
    x ∈ store ∨ nid ≤ Article.id x := by
  induction es generalizing store nid with
  | nil => exact Or.inl (by simpa [insertEntries] using hx)
  | cons e rest ih =>
    unfold insertEntries at hx
    split at hx
    · exact ih _ _ hx
    · rcases ih _ _ hx with h | h
      · rcases List.mem_append.mp h with h1 | h1
        · exact Or.inl h1
        · rw [List.mem_singleton] at h1
          refine Or.inr ?_
          rw [h1]
          exact le_refl _
      · exact Or.inr (le_trans (Nat.le_succ nid) h)

/-- C4 counterexample: the startup recovery pass (a step of the system,
cited by the claim) performs the transition in_progress → pending, which
lies outside the claimed path pending → in_progress → {done, error}. -/
theorem c4_counterexample :
    Step ⟨[mkArticle 0 "k" Status.in_progress "X" 0], [], none, 1⟩
      (startupStep ⟨[mkArticle 0 "k" Status.in_progress "X" 0], [], none, 1⟩) ∧
    (startupStep ⟨[mkArticle 0 "k" Status.in_progress "X" 0], [], none, 1⟩).store =
      [mkArticle 0 "k" Status.pending "X" 0] ∧
    ¬ pathAllowed Status.in_progress Status.pending := by
  refine ⟨Step.startup _, by decide, ?_⟩
  unfold pathAllowed
  decide

/-- C4 amended: on an invariant-satisfying state, every status change a
system step makes to a row that persists across the step follows
pending → in_progress → {done, error} extended with the startup-recovery
edge in_progress → pending; in particular no step moves a pending row
straight to done or error, and no step changes a done or error row. -/
theorem c4_transitions (st st' : SysState) (hInv : SysInv st) (hstep : Step st st')
    (a a' : Article) (ha : a ∈ st.store) (ha' : a' ∈ st'.store)
    (hid : Article.id a = Article.id a') :
    allowedAmended (Article.status a) (Article.status a') := by
  obtain ⟨hnodup, hbound, hclaim⟩ := hInv
  cases hstep with
  | query q page now entries hnow =>
    by_cases hstale : is_stale st.store (cacheKeyOf q) now = true
    · simp only [getNewsStep] at ha'
      rw [if_pos hstale] at ha'
      simp only [fetchAndCacheNews] at ha'
      rcases insertEntries_mem _ _ _ _ _ _ ha' with h | h
      · have ha'store : a' ∈ st.store := (List.mem_filter.mp h).1
        have heq : a = a' := mem_id_unique st.store hnodup a a' ha ha'store hid
        exact Or.inl (Or.inl (by rw [heq]))
      · have hlt := hbound a ha
        have : False := by omega
        exact this.elim
    · simp only [getNewsStep] at ha'
      rw [if_neg hstale] at ha'
      have heq : a = a' := mem_id_unique st.store hnodup a a' ha ha' hid
      exact Or.inl (Or.inl (by rw [heq]))
  | claimSel hidle =>
    cases hsel : selectChosen st.store st.queue with
    | none =>
      simp only [workerSelect, hsel] at ha'
      have heq : a = a' := mem_id_unique st.store hnodup a a' ha ha' hid
      exact Or.inl (Or.inl (by rw [heq]))
    | some c =>
      simp only [workerSelect, hsel] at ha'
      unfold claimUpdate at ha'
      obtain ⟨b, hb, hfb⟩ := List.mem_map.mp ha'
      have hidb : Article.id b = Article.id a' := by
        rw [← hfb]
        split <;> rfl
      have hab : a = b := mem_id_unique st.store hnodup a b ha hb (hid.trans hidb.symm)
      by_cases hbc : Article.id b = Article.id c
      · have hcmem : c ∈ st.store := selectChosen_mem st.store st.queue c hsel
        have hbceq : b = c := mem_id_unique st.store hnodup b c hb hcmem hbc
        have hpend : Article.status a = Status.pending := by
          rw [hab, hbceq]
          exact selectChosen_pending st.store st.queue c hsel
        rw [← hfb, if_pos hbc]
        exact Or.inl (Or.inr (Or.inl ⟨hpend, rfl⟩))
      · rw [← hfb, if_neg hbc]
        exact Or.inl (Or.inl (by rw [hab]))
  | finalize aid provider resp hcl =>
    simp only [workerFinalize] at ha'
    unfold finalizeUpdate at ha'
    obtain ⟨b, hb, hfb⟩ := List.mem_map.mp ha'
    have hidb : Article.id b = Article.id a' := by
      rw [← hfb]
      split
      · split <;> rfl
      · rfl
    have hab : a = b := mem_id_unique st.store hnodup a b ha hb (hid.trans hidb.symm)
    by_cases hba : Article.id b = aid
    · have hbprog : b.status = Status.in_progress := by
        refine hclaim b hb ?_
        rw [hba]
        exact hcl
      rw [← hfb, if_pos hba]
      by_cases hce : containsErr (get_ai_summary provider resp) = true
      · rw [if_pos hce]
        exact Or.inl (Or.inr (Or.inr ⟨by rw [hab]; exact hbprog, Or.inr rfl⟩))
      · rw [if_neg hce]
        exact Or.inl (Or.inr (Or.inr ⟨by rw [hab]; exact hbprog, Or.inl rfl⟩))
    · rw [← hfb, if_neg hba]
      exact Or.inl (Or.inl (by rw [hab]))
  | startup =>
    simp only [startupStep, startupReset] at ha'
    obtain ⟨b, hb, hfb⟩ := List.mem_map.mp ha'
    have hidb : Article.id b = Article.id a' := by
      rw [← hfb]
      split <;> rfl
    have hab : a = b := mem_id_unique st.store hnodup a b ha hb (hid.trans hidb.symm)
    by_cases hbs : b.status = Status.in_progress
    · rw [← hfb, if_pos hbs]
      exact Or.inr ⟨by rw [hab]; exact hbs, rfl⟩
    · rw [← hfb, if_neg hbs]
      exact Or.inl (Or.inl (by rw [hab]))

theorem c4_witness : allowedAmended Status.pending Status.in_progress := by
  have h := c4_transitions
    ⟨[mkArticle 0 "k" Status.pending "X" 0], [], none, 1⟩
    (workerSelect ⟨[mkArticle 0 "k" Status.pending "X" 0], [], none, 1⟩)
    (by unfold SysInv; decide)
    (Step.claimSel _ rfl)
    (mkArticle 0 "k" Status.pending "X" 0)
    ({ mkArticle 0 "k" Status.pending "X" 0 with status := Status.in_progress })
    (by decide) (by decide) (by decide)
  exact h
